/-
Verification of the molecular-ion charge-state resolution engine of
ifes_apt_tc_data_modeling against its design documentation.

The definitions below are shallow embeddings of the Python sources:
  * ifes_apt_tc_data_modeling/utils/utils.py        (hash encoding, range checks)
  * ifes_apt_tc_data_modeling/utils/definitions.py  (constants)
  * ifes_apt_tc_data_modeling/utils/molecular_ions.py
      (MolecularIonCandidate, MolecularIonBuilder: combinatorics,
       iterate_molecular_ion, try_to_reduce_to_unique_solution, helpers)

Machine floats are modelled by rationals (exact field arithmetic); the IEEE
special values inf/NaN used for half-lives are modelled by an explicit
`HalfLife` type with IEEE comparison semantics.  Python dictionaries whose
lookup may raise KeyError are modelled as `Option`-valued maps, and functions
whose asserts may fire return `Option`.
-/
import Mathlib

namespace IfesApt

/-- Constant `MQ_EPSILON = 1/2000` Da, from utils/definitions.py. -/
def MQ_EPSILON : ℚ := 1 / 2000

/-- Embedding of `isotope_to_hash` (utils/utils.py, old layout).
The arguments are first converted to `np.uint16` (wrap mod 65536); the asserts
then require both values to lie below 256, else an AssertionError is raised
(modelled as `none`).  The hash is `p + 256 * n`. -/
def isotope_to_hash (proton_number neutron_number : ℕ) : Option ℕ :=
  let n_protons := proton_number % 65536
  let n_neutrons := neutron_number % 65536
  if n_protons < 256 ∧ n_neutrons < 256 then
    some (n_protons + 256 * n_neutrons)
  else
    none

/-- Embedding of `hash_to_isotope` (utils/utils.py, old layout).
The argument is converted to `np.uint16` (wrap mod 65536); the asserts
`val >= 0` and `val <= 65535` then always hold.  The neutron number is the
truncated quotient by 256 and the proton number the remainder
(`val - neutron_number * 256`, as written in the source). -/
def hash_to_isotope (hashvalue : ℕ) : ℕ × ℕ :=
  let val := hashvalue % 65536
  let neutron_number := val / 256
  let proton_number := val - neutron_number * 256
  (proton_number, neutron_number)

/-- Embedding of `is_range_significant` (utils/utils.py, old layout):
asserts `left >= 0 and right >= 0` (modelled as `none` on failure), then
returns `True` iff `right - left > MQ_EPSILON` (strict). -/
def is_range_significant (left right : ℚ) : Option Bool :=
  if 0 ≤ left ∧ 0 ≤ right then
    some (decide (MQ_EPSILON < right - left))
  else
    none

/-- Embedding of `is_range_significant` (src/ifes_apt_tc_data_modeling layout,
newer): no assert; returns `True` iff both bounds are nonnegative and
`right - left >= MQ_EPSILON` (non-strict). -/
def is_range_significant_v2 (left right : ℚ) : Bool :=
  decide (0 ≤ left) && decide (0 ≤ right) && decide (MQ_EPSILON ≤ right - left)

/-- IEEE float64 half-life values as stored in `nuclid_halflife`:
`np.nan` (unknown), `np.inf` (observationally stable) or a finite number of
seconds. -/
inductive HalfLife where
  | nan : HalfLife
  | inf : HalfLife
  | fin : ℚ → HalfLife
deriving DecidableEq, Repr

/-- Embedding of `np.isnan`. -/
def hlIsNan : HalfLife → Bool
  | .nan => true
  | _ => false

/-- Embedding of `np.min((a, b))`: NaN propagates, `inf` is the top element. -/
def hlMin : HalfLife → HalfLife → HalfLife
  | .nan, _ => .nan
  | _, .nan => .nan
  | .inf, x => x
  | x, .inf => x
  | .fin a, .fin b => .fin (min a b)

/-- IEEE comparison `x >= y`: false whenever either side is NaN. -/
def hlGe : HalfLife → HalfLife → Bool
  | .nan, _ => false
  | _, .nan => false
  | .inf, _ => true
  | .fin _, .inf => false
  | .fin a, .fin b => decide (b ≤ a)

/-- Embedding of class `MolecularIonCandidate` (molecular_ions.py):
a fully resolved isotope combination with one charge state. -/
structure MolecularIonCandidate where
  isotope_vector : List ℕ
  charge : ℕ
  mass : ℚ
  abundance_product : ℚ
  shortest_half_life : HalfLife
deriving DecidableEq, Repr

/-- Embedding of `MolecularIonCandidate.unique_keyword`: the nonzero hash
values sorted descending, paired with the charge.  (The Python code renders
this pair as the string `"h1_h2_..._hk__charge"`; decimal tokens joined by
single underscores followed by the charge make that rendering injective on
the pair, so the pair itself is the faithful model of the dictionary key.) -/
def unique_keyword (cand : MolecularIonCandidate) : List ℕ × ℕ :=
  (((List.insertionSort (· ≤ ·) cand.isotope_vector).reverse).filter (· ≠ 0),
   cand.charge)

/-- The read-only state of a `MolecularIonBuilder` (molecular_ions.py):
the nuclide reference tables built by `__init__` from the external atomic
data source (out of scope per the design document) and the `parms`
configuration dictionary.  `element_isotopes` is a Python dict raising
KeyError on a missing proton number, hence `Option`-valued; the per-nuclide
dicts are only ever read at keys stored in `element_isotopes` lists, for
which `__init__` always stores a value, hence total. -/
structure MolecularIonTables where
  element_isotopes : ℕ → Option (List ℕ)
  nuclid_mass : ℕ → ℚ
  nuclid_abundance : ℕ → ℚ
  nuclid_halflife : ℕ → HalfLife
  min_abundance : ℚ
  min_abundance_product : ℚ
  min_half_life : HalfLife
  sacrifice_isotopic_uniqueness : Bool

/-- A `MolecularIonBuilder` instance: the read-only tables plus the mutable
`self.candidates` accumulator. -/
structure MolecularIonBuilder where
  tables : MolecularIonTables
  candidates : List MolecularIonCandidate

/-- Embedding of `MolecularIonBuilder.get_element_isotopes`: decode the hash,
look the proton number up in the `element_isotopes` dict (KeyError modelled
as `none`). -/
def get_element_isotopes (t : MolecularIonTables) (hashvalue : ℕ) :
    Option (List ℕ) :=
  t.element_isotopes (hash_to_isotope hashvalue).1

/-- Embedding of `MolecularIonBuilder.get_isotope_mass_sum`: sum of the
masses of the nonzero entries. -/
def get_isotope_mass_sum (t : MolecularIonTables) (nuclid_arr : List ℕ) : ℚ :=
  nuclid_arr.foldl (fun mass h => if h ≠ 0 then mass + t.nuclid_mass h else mass) 0

/-- Embedding of `MolecularIonBuilder.get_natural_abundance_product`:
product of the abundances of the nonzero entries. -/
def get_natural_abundance_product (t : MolecularIonTables) (nuclid_arr : List ℕ) : ℚ :=
  nuclid_arr.foldl (fun p h => if h ≠ 0 then p * t.nuclid_abundance h else p) 1

/-- Embedding of `MolecularIonBuilder.get_shortest_half_life`: starting from
`parms["min_half_life"]`, fold `np.min` over the half-lives of the nonzero
entries.  The source guards each step with `nuclid_halflife[h] != np.nan`,
but under IEEE semantics `x != nan` is true for every `x` (including NaN
itself), so the guarded branch is always taken and the explicit
`return np.nan` is dead code; NaN still propagates because `np.min`
propagates it. -/
def get_shortest_half_life (t : MolecularIonTables) (nuclid_arr : List ℕ) : HalfLife :=
  nuclid_arr.foldl
    (fun m h => if h ≠ 0 then hlMin m (t.nuclid_halflife h) else m)
    t.min_half_life

/-- Embedding of `np.arange(1, 8)`: the charge states tried, in increasing order. -/
def charge_list : List ℕ := [1, 2, 3, 4, 5, 6, 7]

/-- The charge-state loop at the bottom of
`MolecularIonBuilder.iterate_molecular_ion`: walk the given charges in
order; `break` as soon as `mass / c < low`, `continue` (skip) while
`mass / c > high`, otherwise record the charge. -/
def charge_states (mass low high : ℚ) : List ℕ → List ℕ
  | [] => []
  | c :: rest =>
    if mass / (c : ℚ) < low then []
    else if mass / (c : ℚ) > high then charge_states mass low high rest
    else c :: charge_states mass low high rest

/-- The completed-combination branch (`i == max_n - 1`) body of
`iterate_molecular_ion` for one chosen nuclide: compute mass, abundance
product and shortest half-life of `cand_arr`, then emit one
`MolecularIonCandidate` per surviving charge state. -/
def emit_for_combination (t : MolecularIonTables) (cand_arr : List ℕ)
    (low high : ℚ) : List MolecularIonCandidate :=
  let new_mass := get_isotope_mass_sum t cand_arr
  let new_abun_prod := get_natural_abundance_product t cand_arr
  let new_halflife := get_shortest_half_life t cand_arr
  (charge_states new_mass low high charge_list).map
    (fun new_chrg => ⟨cand_arr, new_chrg, new_mass, new_abun_prod, new_halflife⟩)

/-- Embedding of `MolecularIonBuilder.iterate_molecular_ion`.  The mutated
`self.candidates` list is threaded through as `acc`; a KeyError from
`get_element_isotopes` propagates as `none`.  At depth `i < max_n - 1` the
code loops over `jth_nuclids`, looking up the isotopes of slot `i + 1` and
recursing one level deeper for each nuclide; at depth `i == max_n - 1` it
appends the candidates of each completed combination; deeper calls return
unchanged (Python integer comparisons `i < max_n - 1` and `i == max_n - 1`
are rendered as `i + 1 < max_n` and `i + 1 = max_n` to avoid ℕ
truncation). -/
def iterate_molecular_ion (t : MolecularIonTables) (element_arr : List ℕ)
    (low high : ℚ) (jth_nuclids cand_arr_prev : List ℕ) (i max_n : ℕ)
    (acc : List MolecularIonCandidate) : Option (List MolecularIonCandidate) :=
  if i + 1 < max_n then
    match jth_nuclids with
    | [] => some acc
    | nuclid :: rest =>
      match get_element_isotopes t (element_arr.getD (i + 1) 0) with
      | none => none
      | some ixxth_nuclids =>
        match iterate_molecular_ion t element_arr low high ixxth_nuclids
            (cand_arr_prev ++ [nuclid]) (i + 1) max_n acc with
        | none => none
        | some acc2 =>
          iterate_molecular_ion t element_arr low high rest
            cand_arr_prev i max_n acc2
  else if i + 1 = max_n then
    some (jth_nuclids.foldl
      (fun a nuclid => a ++ emit_for_combination t (cand_arr_prev ++ [nuclid]) low high)
      acc)
  else
    some acc
termination_by (max_n - i, jth_nuclids.length)
decreasing_by
  · simp_wf
    omega
  · simp_wf
    omega

/-- Filter condition of `try_to_reduce_to_unique_solution` (nested ifs of
the loop over `self.candidates`): abundance product at least
`min_abundance_product`, half-life known (not NaN) and at least
`min_half_life`. -/
def passes_filter (t : MolecularIonTables) (cand : MolecularIonCandidate) : Bool :=
  decide (cand.abundance_product ≥ t.min_abundance_product) &&
  !hlIsNan cand.shortest_half_life &&
  hlGe cand.shortest_half_life t.min_half_life

/-- The loop of `try_to_reduce_to_unique_solution` that fills the
`self.relevant` dict: traverse the candidates in generation order, keeping
a candidate iff it passes the filter and its `unique_keyword` was not
registered before; `seen` is the set of keys already in the dict. -/
def reduce_relevant (t : MolecularIonTables) :
    List MolecularIonCandidate → List (List ℕ × ℕ) → List MolecularIonCandidate
  | [], _ => []
  | cand :: rest, seen =>
    if passes_filter t cand ∧ unique_keyword cand ∉ seen then
      cand :: reduce_relevant t rest (unique_keyword cand :: seen)
    else
      reduce_relevant t rest seen

/-- The `relevant_candidates` list of `try_to_reduce_to_unique_solution`:
the values of the `self.relevant` dict in insertion order. -/
def relevant_candidates_of (t : MolecularIonTables)
    (cands : List MolecularIonCandidate) : List MolecularIonCandidate :=
  reduce_relevant t cands []

/-- Keep-first deduplication by `unique_keyword`, as the design document
describes the second half of the filtering step: later duplicates dropped,
first occurrence kept. -/
def dedup_first_by_key :
    List MolecularIonCandidate → List (List ℕ × ℕ) → List MolecularIonCandidate
  | [], _ => []
  | cand :: rest, seen =>
    if unique_keyword cand ∉ seen then
      cand :: dedup_first_by_key rest (unique_keyword cand :: seen)
    else
      dedup_first_by_key rest seen

/-- Embedding of `MolecularIonBuilder.try_to_reduce_to_unique_solution`
after the `self.relevant` dict has been built from the accumulated
candidates: 0 relevant → `(0, [])`; 1 relevant → its charge; several
relevant → the shared charge if all agree and
`sacrifice_isotopic_uniqueness` is set, else the ambiguity sentinel 0 —
always together with the full relevant list. -/
def try_to_reduce_to_unique_solution (t : MolecularIonTables)
    (cands : List MolecularIonCandidate) : ℕ × List MolecularIonCandidate :=
  let relevant := relevant_candidates_of t cands
  match relevant with
  | [] => (0, [])
  | [cand] => (cand.charge, [cand])
  | cand :: rest =>
    if rest.all (fun d => d.charge = cand.charge) then
      if t.sacrifice_isotopic_uniqueness then (cand.charge, cand :: rest)
      else (0, cand :: rest)
    else (0, cand :: rest)

/-- Embedding of `MolecularIonBuilder.combinatorics` without the state
threading: the per-slot assert `n_neutrons == 0` (AssertionError modelled
as `none`), the count `max_depth` of nonzero slots, the early
`(0, [])` return for `max_depth == 0`, and otherwise the recursive search
from slot 0 followed by `try_to_reduce_to_unique_solution`.  Returns the
final `self.candidates` list alongside the returned pair. -/
def comb_result (t : MolecularIonTables) (element_arr : List ℕ)
    (low high : ℚ) :
    Option (List MolecularIonCandidate × (ℕ × List MolecularIonCandidate)) :=
  if element_arr.all (fun h => (hash_to_isotope h).2 = 0) then
    let max_depth := (element_arr.filter (· ≠ 0)).length
    if 0 < max_depth then
      match get_element_isotopes t (element_arr.getD 0 0) with
      | none => none
      | some ith_nuclids =>
        match iterate_molecular_ion t element_arr low high ith_nuclids [] 0 max_depth [] with
        | none => none
        | some cands => some (cands, try_to_reduce_to_unique_solution t cands)
    else
      some ([], (0, []))
  else
    none

/-- Embedding of `MolecularIonBuilder.combinatorics` as a state transformer
on the builder: the method reads only the tables, overwrites
`self.candidates` (reset at the start of the call, filled by the recursion)
and returns the `(charge, relevant_candidates)` pair. -/
def combinatorics (self : MolecularIonBuilder) (element_arr : List ℕ)
    (low high : ℚ) :
    Option (MolecularIonBuilder × (ℕ × List MolecularIonCandidate)) :=
  (comb_result self.tables element_arr low high).map
    (fun p => ({ self with candidates := p.1 }, p.2))

/-- Concrete tables used to instantiate the theorems below: hydrogen-like
element 1 with the single isotope hash 257 (mass 1, unit abundance,
half-life 2 s), carbon-like element 6 with the single isotope hash 1542
(mass 12), a finite policy half-life threshold of 1 s, and no key for
element 0 (as asserted by `MolecularIonBuilder.__init__`). -/
def tW : MolecularIonTables where
  element_isotopes := fun p =>
    if p = 1 then some [257] else if p = 6 then some [1542] else none
  nuclid_mass := fun h => if h = 257 then 1 else if h = 1542 then 12 else 0
  nuclid_abundance := fun _ => 1
  nuclid_halflife := fun h => if h = 257 then .fin 2 else .inf
  min_abundance := 0
  min_abundance_product := 0
  min_half_life := .fin 1
  sacrifice_isotopic_uniqueness := true

/-- A fresh builder over `tW`. -/
def bW : MolecularIonBuilder := ⟨tW, []⟩

lemma charge_states_eq_filter (m low high : ℚ) (h0 : 0 ≤ low) :
    ∀ cs : List ℕ, (∀ c ∈ cs, 0 < c) → cs.Pairwise (· ≤ ·) →
      charge_states m low high cs =
        cs.filter (fun (c : ℕ) => decide (low ≤ m / (c : ℚ) ∧ m / (c : ℚ) ≤ high)) := by
  intro cs
  induction cs with
  | nil => intro _ _; rfl
  | cons c rest ih =>
    intro hpos hpw
    rw [List.pairwise_cons] at hpw
    obtain ⟨hle, hpw2⟩ := hpw
    have hcpos : (0 : ℚ) < (c : ℚ) := by
      exact_mod_cast hpos c (List.mem_cons_self c rest)
    have hrest := ih (fun x hx => hpos x (List.mem_cons_of_mem c hx)) hpw2
    rw [charge_states, List.filter_cons]
    by_cases hbreak : m / (c : ℚ) < low
    · rw [if_pos hbreak]
      have hcfail : ¬ (low ≤ m / (c : ℚ) ∧ m / (c : ℚ) ≤ high) := by
        intro hcon
        exact absurd hcon.1 (not_le.mpr hbreak)
      rw [if_neg (by simpa using hcfail)]
      symm
      rw [List.filter_eq_nil_iff]
      intro x hx
      have hxpos : (0 : ℚ) < (x : ℕ) := by
        exact_mod_cast hpos x (List.mem_cons_of_mem c hx)
      have hcx : (c : ℚ) ≤ (x : ℚ) := by exact_mod_cast hle x hx
      have hxlow : m / (x : ℚ) < low := by
        rcases le_or_lt 0 m with hm | hm
        · have : m / (x : ℚ) ≤ m / (c : ℚ) := by gcongr
          linarith
        · have : m / (x : ℚ) < 0 := div_neg_of_neg_of_pos hm hxpos
          linarith
      simp only [decide_eq_true_eq, not_and, not_le]
      intro hcon
      exact absurd hxlow (not_lt.mpr hcon)
    · rw [if_neg hbreak]
      by_cases hskip : m / (c : ℚ) > high
      · rw [if_pos hskip]
        have hcfail : ¬ (low ≤ m / (c : ℚ) ∧ m / (c : ℚ) ≤ high) := by
          intro hcon
          exact absurd hcon.2 (not_le.mpr hskip)
        rw [if_neg (by simpa using hcfail)]
        exact hrest
      · rw [if_neg hskip]
        have hcok : low ≤ m / (c : ℚ) ∧ m / (c : ℚ) ≤ high :=
          ⟨not_lt.mp hbreak, not_lt.mp hskip⟩
        rw [if_pos (by simpa using hcok)]
        rw [hrest]

/-- C1: for a completed isotope combination of total mass `m` and an
interval `0 ≤ low ≤ high`, the candidates emitted by the charge-state loop
of `iterate_molecular_ion` are exactly one candidate per charge
`c ∈ {1, …, 7}` with `low ≤ m / c ≤ high`, in increasing charge order: the
`break` on `m / c < low` loses no in-interval charge (the ratio is
non-increasing in `c`), and the `continue` on `m / c > high` skips only
that charge. -/
theorem charge_loop_exact (t : MolecularIonTables) (cand_arr : List ℕ)
    (low high : ℚ) (h0 : 0 ≤ low) (_hlh : low ≤ high) :
    emit_for_combination t cand_arr low high =
      (charge_list.filter (fun (c : ℕ) =>
          decide (low ≤ get_isotope_mass_sum t cand_arr / (c : ℚ) ∧
                  get_isotope_mass_sum t cand_arr / (c : ℚ) ≤ high))).map
        (fun c => ⟨cand_arr, c, get_isotope_mass_sum t cand_arr,
                   get_natural_abundance_product t cand_arr,
                   get_shortest_half_life t cand_arr⟩) := by
  simp only [emit_for_combination]
  rw [charge_states_eq_filter _ _ _ h0 charge_list (by decide) (by decide)]

theorem charge_loop_exact_witness :
    ((0 : ℚ) ≤ 3/5 ∧ (3/5 : ℚ) ≤ 3/2) ∧
    emit_for_combination tW [257] (3/5) (3/2) =
      (charge_list.filter (fun (c : ℕ) =>
          decide ((3/5 : ℚ) ≤ get_isotope_mass_sum tW [257] / (c : ℚ) ∧
                  get_isotope_mass_sum tW [257] / (c : ℚ) ≤ 3/2))).map
        (fun c => ⟨[257], c, get_isotope_mass_sum tW [257],
                   get_natural_abundance_product tW [257],
                   get_shortest_half_life tW [257]⟩) :=
  ⟨⟨by norm_num, by norm_num⟩,
   charge_loop_exact tW [257] (3/5) (3/2) (by norm_num) (by norm_num)⟩

/-- The design document's wording for the shortest half-life of a candidate:
the minimum over (the half-lives of) exactly the isotopes of the resolved
composition, NaN propagating.  Stated as a fold of `np.min` starting from
`inf` (the neutral element of the minimum), to be compared with the
source's `get_shortest_half_life`. -/
def spec_min_half_life (t : MolecularIonTables) (nuclid_arr : List ℕ) : HalfLife :=
  nuclid_arr.foldl
    (fun m h => if h ≠ 0 then hlMin m (t.nuclid_halflife h) else m)
    HalfLife.inf

lemma hlMin_inf_right (a : HalfLife) : hlMin a .inf = a := by
  cases a <;> rfl

lemma hlMin_inf_left (a : HalfLife) : hlMin .inf a = a := by
  cases a <;> rfl

lemma hlMin_nan_right (a : HalfLife) : hlMin a .nan = .nan := by
  cases a <;> rfl

lemma hlMin_nan_left (a : HalfLife) : hlMin .nan a = .nan := by
  cases a <;> rfl

lemma hlIsNan_iff (a : HalfLife) : hlIsNan a = true ↔ a = .nan := by
  cases a <;> simp [hlIsNan]

lemma hlMin_assoc (a b c : HalfLife) :
    hlMin (hlMin a b) c = hlMin a (hlMin b c) := by
  cases a <;> cases b <;> cases c <;> simp [hlMin, min_assoc]

lemma foldl_hlMin_factor (t : MolecularIonTables) :
    ∀ (l : List ℕ) (a : HalfLife),
      l.foldl (fun m h => if h ≠ 0 then hlMin m (t.nuclid_halflife h) else m) a =
        hlMin a
          (l.foldl (fun m h => if h ≠ 0 then hlMin m (t.nuclid_halflife h) else m)
            HalfLife.inf) := by
  intro l
  induction l with
  | nil =>
    intro a
    rw [List.foldl_nil, List.foldl_nil, hlMin_inf_right]
  | cons x rest ih =>
    intro a
    simp only [List.foldl_cons]
    by_cases hx : x ≠ 0
    · rw [if_pos hx, if_pos hx,
          ih (hlMin a (t.nuclid_halflife x)),
          ih (hlMin HalfLife.inf (t.nuclid_halflife x)),
          hlMin_inf_left, hlMin_assoc]
    · rw [if_neg hx, if_neg hx]
      exact ih a

lemma spec_min_half_life_cons (t : MolecularIonTables) (x : ℕ) (rest : List ℕ) :
    spec_min_half_life t (x :: rest) =
      if x ≠ 0 then hlMin (t.nuclid_halflife x) (spec_min_half_life t rest)
      else spec_min_half_life t rest := by
  simp only [spec_min_half_life, List.foldl_cons]
  by_cases hx : x ≠ 0
  · rw [if_pos hx, if_pos hx, foldl_hlMin_factor, hlMin_inf_left]
  · rw [if_neg hx, if_neg hx]

lemma spec_min_half_life_nan (t : MolecularIonTables) :
    ∀ (l : List ℕ) (h : ℕ), h ∈ l → h ≠ 0 →
      hlIsNan (t.nuclid_halflife h) = true →
      hlIsNan (spec_min_half_life t l) = true := by
  intro l
  induction l with
  | nil => intro h hmem; exact absurd hmem (List.not_mem_nil h)
  | cons x rest ih =>
    intro h hmem hnz hnan
    rcases List.mem_cons.mp hmem with rfl | hmem2
    · rw [spec_min_half_life_cons, if_pos hnz, (hlIsNan_iff _).mp hnan,
          hlMin_nan_left]
      rfl
    · have hrest := ih h hmem2 hnz hnan
      rw [spec_min_half_life_cons]
      by_cases hx : x ≠ 0
      · rw [if_pos hx, (hlIsNan_iff _).mp hrest, hlMin_nan_right]
        rfl
      · rw [if_neg hx]
        exact hrest

/-- C4 amended: the `shortest_half_life` field of every candidate emitted by
the expander equals `np.min` of `parms["min_half_life"]` together with the
half-lives of exactly the isotopes of the resolved composition — i.e. the
minimum over the isotopes additionally clamped from above by the policy
threshold.  When `min_half_life` is `inf` (the documented default) this is
exactly the minimum over the isotopes; a NaN (unknown) half-life of any
isotope propagates to NaN and is never replaced by a numeric value. -/
theorem shortest_half_life_emitted (t : MolecularIonTables) (cand_arr : List ℕ)
    (low high : ℚ) (cand : MolecularIonCandidate)
    (hmem : cand ∈ emit_for_combination t cand_arr low high) :
    cand.shortest_half_life = get_shortest_half_life t cand_arr ∧
    get_shortest_half_life t cand_arr =
      hlMin t.min_half_life (spec_min_half_life t cand_arr) ∧
    (t.min_half_life = .inf →
      get_shortest_half_life t cand_arr = spec_min_half_life t cand_arr) ∧
    (∀ h ∈ cand_arr, h ≠ 0 → hlIsNan (t.nuclid_halflife h) = true →
      hlIsNan (get_shortest_half_life t cand_arr) = true) := by
  have hfield : cand.shortest_half_life = get_shortest_half_life t cand_arr := by
    simp only [emit_for_combination, List.mem_map] at hmem
    obtain ⟨c, _, rfl⟩ := hmem
    rfl
  have hfactor : get_shortest_half_life t cand_arr =
      hlMin t.min_half_life (spec_min_half_life t cand_arr) := by
    simp only [get_shortest_half_life, spec_min_half_life]
    exact foldl_hlMin_factor t cand_arr t.min_half_life
  refine ⟨hfield, hfactor, ?_, ?_⟩
  · intro hinf
    rw [hfactor, hinf, hlMin_inf_left]
  · intro h hmem2 hnz hnan
    rw [hfactor,
        (hlIsNan_iff _).mp (spec_min_half_life_nan t cand_arr h hmem2 hnz hnan),
        hlMin_nan_right]
    rfl

theorem shortest_half_life_emitted_witness :
    (⟨[257], 1, 1, 1, .fin 1⟩ : MolecularIonCandidate) ∈
        emit_for_combination tW [257] (3/5) (3/2) ∧
    ((⟨[257], 1, 1, 1, .fin 1⟩ : MolecularIonCandidate).shortest_half_life =
        get_shortest_half_life tW [257] ∧
      get_shortest_half_life tW [257] =
        hlMin tW.min_half_life (spec_min_half_life tW [257]) ∧
      (tW.min_half_life = .inf →
        get_shortest_half_life tW [257] = spec_min_half_life tW [257]) ∧
      (∀ h ∈ [257], h ≠ 0 → hlIsNan (tW.nuclid_halflife h) = true →
        hlIsNan (get_shortest_half_life tW [257]) = true)) := by
  have hmem : (⟨[257], 1, 1, 1, .fin 1⟩ : MolecularIonCandidate) ∈
      emit_for_combination tW [257] (3/5) (3/2) := by
    norm_num [emit_for_combination, charge_states, charge_list,
      get_isotope_mass_sum, get_natural_abundance_product,
      get_shortest_half_life, tW, hlMin]
  exact ⟨hmem, shortest_half_life_emitted tW [257] (3/5) (3/2) _ hmem⟩

/-- C4 counterexample: with the policy threshold `min_half_life = 1` s and a
single isotope (hash 257) of half-life 2 s, the candidate emitted by the
expander carries `shortest_half_life = 1` s (the loop of
`get_shortest_half_life` starts from `parms["min_half_life"]`), while the
minimum over the half-lives of exactly the isotopes of its composition is
2 s — so the emitted field does not equal that minimum. -/
theorem shortest_half_life_not_isotope_min :
    (emit_for_combination tW [257] (3/5) (3/2)).map
        (fun c => c.shortest_half_life) = [HalfLife.fin 1] ∧
    spec_min_half_life tW [257] = HalfLife.fin 2 ∧
    HalfLife.fin 1 ≠ HalfLife.fin 2 := by
  refine ⟨?_, ?_, by simp⟩
  · norm_num [emit_for_combination, charge_states, charge_list,
      get_isotope_mass_sum, get_natural_abundance_product,
      get_shortest_half_life, tW, hlMin]
  · norm_num [spec_min_half_life, tW, hlMin]

lemma reduce_relevant_eq_dedup_filter (t : MolecularIonTables) :
    ∀ (cands : List MolecularIonCandidate) (seen : List (List ℕ × ℕ)),
      reduce_relevant t cands seen =
        dedup_first_by_key (cands.filter (passes_filter t)) seen := by
  intro cands
  induction cands with
  | nil => intro seen; rfl
  | cons cand rest ih =>
    intro seen
    rw [reduce_relevant, List.filter_cons]
    by_cases hp : passes_filter t cand = true
    · rw [if_pos hp, dedup_first_by_key]
      by_cases hk : unique_keyword cand ∉ seen
      · rw [if_pos ⟨hp, hk⟩, if_pos hk, ih]
      · rw [if_neg (fun hcon => hk hcon.2), if_neg hk, ih]
    · rw [if_neg (fun hcon => hp hcon.1),
          if_neg (by simpa using hp), ih]

lemma dedup_first_by_key_filter (k : List ℕ × ℕ) :
    ∀ (l : List MolecularIonCandidate) (seen : List (List ℕ × ℕ)),
      (dedup_first_by_key l seen).filter (fun c => unique_keyword c = k) =
        if k ∈ seen then []
        else (l.filter (fun c => unique_keyword c = k)).take 1 := by
  intro l
  induction l with
  | nil =>
    intro seen
    by_cases hk : k ∈ seen <;> simp [dedup_first_by_key, hk]
  | cons cand rest ih =>
    intro seen
    rw [dedup_first_by_key]
    by_cases hc : unique_keyword cand ∉ seen
    · rw [if_pos hc, List.filter_cons]
      by_cases hck : unique_keyword cand = k
      · subst hck
        rw [if_pos (by simp), ih (unique_keyword cand :: seen),
            if_pos (List.mem_cons_self _ _), if_neg hc, List.filter_cons,
            if_pos (by simp)]
        simp
      · rw [if_neg (by simpa using hck), ih (unique_keyword cand :: seen)]
        by_cases hk : k ∈ seen
        · rw [if_pos (List.mem_cons_of_mem _ hk), if_pos hk]
        · rw [if_neg (by
              intro hcon
              rcases List.mem_cons.mp hcon with heq | hmem
              · exact hck heq.symm
              · exact hk hmem),
            if_neg hk, List.filter_cons, if_neg (by simpa using hck)]
    · rw [if_neg hc, ih seen]
      have hcmem : unique_keyword cand ∈ seen := not_not.mp hc
      by_cases hk : k ∈ seen
      · rw [if_pos hk, if_pos hk]
      · have hck : unique_keyword cand ≠ k := fun heq => hk (heq ▸ hcmem)
        rw [if_neg hk, if_neg hk, List.filter_cons, if_neg (by simpa using hck)]

/-- C3: the `relevant` dict built by `try_to_reduce_to_unique_solution`
holds exactly the candidates passing the abundance/half-life filter,
deduplicated by their `unique_keyword` (sorted-descending hash sequence
plus charge) keeping the first occurrence in generation order: the one-pass
construction equals filter-then-dedup-first, the filter condition is
`abundance_product ≥ min_abundance_product` and a known (non-NaN)
`shortest_half_life ≥ min_half_life`, and for every key the deduplicated
list retains exactly the first filtered candidate with that key. -/
theorem relevant_filter_dedup (t : MolecularIonTables)
    (cands : List MolecularIonCandidate) :
    relevant_candidates_of t cands =
      dedup_first_by_key (cands.filter (passes_filter t)) [] ∧
    (∀ cand : MolecularIonCandidate,
      passes_filter t cand = true ↔
        (cand.abundance_product ≥ t.min_abundance_product ∧
         hlIsNan cand.shortest_half_life = false ∧
         hlGe cand.shortest_half_life t.min_half_life = true)) ∧
    (∀ (l : List MolecularIonCandidate) (k : List ℕ × ℕ),
      (dedup_first_by_key l []).filter (fun c => unique_keyword c = k) =
        (l.filter (fun c => unique_keyword c = k)).take 1) := by
  refine ⟨reduce_relevant_eq_dedup_filter t cands [], ?_, ?_⟩
  · intro cand
    simp [passes_filter, Bool.and_eq_true, and_assoc]
  · intro l k
    rw [dedup_first_by_key_filter k l [], if_neg (List.not_mem_nil k)]

/-- C2: the decision step of `try_to_reduce_to_unique_solution`: exactly one
relevant candidate → its charge; several relevant candidates all sharing the
first one's charge → that charge if `sacrifice_isotopic_uniqueness` else the
sentinel 0; several relevant candidates with differing charges → 0; and in
every case the full relevant candidate list is returned alongside. -/
theorem resolver_decision (t : MolecularIonTables)
    (cands : List MolecularIonCandidate) :
    (try_to_reduce_to_unique_solution t cands).2 = relevant_candidates_of t cands ∧
    (∀ cand, relevant_candidates_of t cands = [cand] →
      (try_to_reduce_to_unique_solution t cands).1 = cand.charge) ∧
    (∀ cand rest, relevant_candidates_of t cands = cand :: rest → rest ≠ [] →
      ((∀ d ∈ cand :: rest, d.charge = cand.charge) →
        (try_to_reduce_to_unique_solution t cands).1 =
          if t.sacrifice_isotopic_uniqueness then cand.charge else 0) ∧
      ((∃ d ∈ cand :: rest, d.charge ≠ cand.charge) →
        (try_to_reduce_to_unique_solution t cands).1 = 0)) := by
  refine ⟨?_, ?_, ?_⟩
  · simp only [try_to_reduce_to_unique_solution]
    cases hrel : relevant_candidates_of t cands with
    | nil => rfl
    | cons cand rest =>
      cases rest with
      | nil => rfl
      | cons d rest2 => by_cases hall : (d :: rest2).all (fun e => e.charge = cand.charge) <;>
          by_cases hsac : t.sacrifice_isotopic_uniqueness <;>
          simp [hall, hsac]
  · intro cand hrel
    simp only [try_to_reduce_to_unique_solution, hrel]
  · intro cand rest hrel hne
    cases rest with
    | nil => exact absurd rfl hne
    | cons d rest2 =>
      constructor
      · intro hall
        have hb : (d :: rest2).all (fun e => e.charge = cand.charge) = true := by
          rw [List.all_eq_true]
          intro e he
          simp only [decide_eq_true_eq]
          exact hall e (List.mem_cons_of_mem cand he)
        simp only [try_to_reduce_to_unique_solution, hrel, hb, if_true]
        by_cases hsac : t.sacrifice_isotopic_uniqueness <;> simp [hsac]
      · rintro ⟨e, hemem, hene⟩
        have he2 : e ∈ d :: rest2 := by
          rcases List.mem_cons.mp hemem with rfl | hm
          · exact absurd rfl hene
          · exact hm
        have hb : (d :: rest2).all (fun e => e.charge = cand.charge) = false := by
          rw [List.all_eq_false]
          exact ⟨e, he2, by simpa using hene⟩
        simp only [try_to_reduce_to_unique_solution, hrel, hb]
        simp

theorem resolver_decision_witness :
    relevant_candidates_of tW
        [⟨[257], 1, 1, 1, .fin 1⟩] = [⟨[257], 1, 1, 1, .fin 1⟩] ∧
    (try_to_reduce_to_unique_solution tW [⟨[257], 1, 1, 1, .fin 1⟩]).1 =
      (⟨[257], 1, 1, 1, .fin 1⟩ : MolecularIonCandidate).charge := by
  have hrel : relevant_candidates_of tW [⟨[257], 1, 1, 1, .fin 1⟩] =
      [⟨[257], 1, 1, 1, .fin 1⟩] := by
    norm_num [relevant_candidates_of, reduce_relevant, passes_filter, hlIsNan,
      hlGe, tW]
  exact ⟨hrel,
    (resolver_decision tW [⟨[257], 1, 1, 1, .fin 1⟩]).2.1 _ hrel⟩

/-- C8: a composition with zero non-empty slots passes the input validation,
resets the candidate accumulator to empty and resolves to the ambiguity
sentinel: `combinatorics` returns charge state 0 with an empty relevant
candidate list, the recursive search never running. -/
theorem empty_composition (self : MolecularIonBuilder) (element_arr : List ℕ)
    (low high : ℚ) (hz : ∀ x ∈ element_arr, x = 0) :
    combinatorics self element_arr low high =
      some ({ self with candidates := [] }, (0, [])) := by
  have hval : element_arr.all (fun h => (hash_to_isotope h).2 = 0) = true := by
    rw [List.all_eq_true]
    intro x hx
    rw [hz x hx]
    decide
  have hfilter : element_arr.filter (fun h => h ≠ 0) = [] := by
    rw [List.filter_eq_nil_iff]
    intro x hx
    simp [hz x hx]
  simp only [combinatorics, comb_result, hval, if_true]
  rw [hfilter]
  simp

theorem empty_composition_witness :
    (∀ x ∈ ([0, 0] : List ℕ), x = 0) ∧
    combinatorics bW [0, 0] 0 10 = some ({ bW with candidates := [] }, (0, [])) :=
  ⟨by decide, empty_composition bW [0, 0] 0 10 (by decide)⟩

/-- C7: `combinatorics` is deterministic and idempotent on an unmodified
builder: its returned pair depends only on the read-only tables (any two
builders with equal tables produce the same result, whatever their candidate
accumulators hold, because the accumulator is reset at the start of each
call), and a second call on the builder state produced by a first call
returns exactly the same state and result. -/
theorem combinatorics_deterministic :
    (∀ (s1 s2 : MolecularIonBuilder) (element_arr : List ℕ) (low high : ℚ),
      s1.tables = s2.tables →
      Option.map Prod.snd (combinatorics s1 element_arr low high) =
        Option.map Prod.snd (combinatorics s2 element_arr low high)) ∧
    (∀ (s s1 : MolecularIonBuilder) (element_arr : List ℕ) (low high : ℚ)
        (r1 : ℕ × List MolecularIonCandidate),
      combinatorics s element_arr low high = some (s1, r1) →
      combinatorics s1 element_arr low high = some (s1, r1)) := by
  constructor
  · intro s1 s2 element_arr low high hst
    simp only [combinatorics, hst]
  · intro s s1 element_arr low high r1 hcall
    simp only [combinatorics] at hcall ⊢
    cases hres : comb_result s.tables element_arr low high with
    | none =>
      rw [hres] at hcall
      simp at hcall
    | some p =>
      rw [hres] at hcall
      have hcall2 : (({ s with candidates := p.1 }, p.2) :
          MolecularIonBuilder × (ℕ × List MolecularIonCandidate)) = (s1, r1) := by
        simpa using hcall
      have hs1 : { s with candidates := p.1 } = s1 := congrArg Prod.fst hcall2
      have hr1 : p.2 = r1 := congrArg Prod.snd hcall2
      have htab : s1.tables = s.tables := by rw [← hs1]
      subst hr1
      rw [htab, hres, ← hs1]
      rfl

theorem combinatorics_deterministic_witness :
    combinatorics bW [1] (3/5) (3/2) =
      some (⟨tW, [⟨[257], 1, 1, 1, .fin 1⟩]⟩,
            (1, [⟨[257], 1, 1, 1, .fin 1⟩])) ∧
    combinatorics ⟨tW, [⟨[257], 1, 1, 1, .fin 1⟩]⟩ [1] (3/5) (3/2) =
      some (⟨tW, [⟨[257], 1, 1, 1, .fin 1⟩]⟩,
            (1, [⟨[257], 1, 1, 1, .fin 1⟩])) := by
  have hfirst : combinatorics bW [1] (3/5) (3/2) =
      some (⟨tW, [⟨[257], 1, 1, 1, .fin 1⟩]⟩,
            (1, [⟨[257], 1, 1, 1, .fin 1⟩])) := by
    norm_num [combinatorics, comb_result, bW, tW, get_element_isotopes,
      hash_to_isotope, iterate_molecular_ion, emit_for_combination,
      charge_states, charge_list, get_isotope_mass_sum,
      get_natural_abundance_product, get_shortest_half_life, hlMin,
      try_to_reduce_to_unique_solution, relevant_candidates_of,
      reduce_relevant, passes_filter, hlIsNan, hlGe]
  exact ⟨hfirst,
    combinatorics_deterministic.2 bW _ [1] (3/5) (3/2) _ hfirst⟩

lemma getD_append_left (l l2 : List ℕ) :
    ∀ k, k < l.length → (l ++ l2).getD k 0 = l.getD k 0 := by
  induction l with
  | nil => intro k hk; exact absurd hk (by simp)
  | cons x rest ih =>
    intro k hk
    cases k with
    | zero => rfl
    | succ k2 =>
      simp only [List.cons_append, List.getD_cons_succ]
      exact ih k2 (by simpa using hk)

lemma getD_mem_of_lt (l : List ℕ) :
    ∀ k, k < l.length → l.getD k 0 ∈ l := by
  induction l with
  | nil => intro k hk; exact absurd hk (by simp)
  | cons x rest ih =>
    intro k hk
    cases k with
    | zero => exact List.mem_cons_self x rest
    | succ k2 =>
      simp only [List.getD_cons_succ]
      exact List.mem_cons_of_mem x (ih k2 (by simpa using hk))

lemma iterate_molecular_ion_isSome (t : MolecularIonTables)
    (element_arr : List ℕ) (low high : ℚ) (max_n : ℕ)
    (hcov : ∀ k, k < max_n → (get_element_isotopes t (element_arr.getD k 0)).isSome) :
    ∀ (d : ℕ) (jth_nuclids cand_arr_prev : List ℕ) (i : ℕ)
      (acc : List MolecularIonCandidate), max_n ≤ i + d →
      (iterate_molecular_ion t element_arr low high jth_nuclids cand_arr_prev
          i max_n acc).isSome := by
  intro d
  induction d with
  | zero =>
    intro jth_nuclids cand_arr_prev i acc hd
    rw [iterate_molecular_ion.eq_def]
    rw [if_neg (by omega)]
    split <;> simp
  | succ d ih =>
    intro jth_nuclids
    induction jth_nuclids with
    | nil =>
      intro cand_arr_prev i acc hd
      rw [iterate_molecular_ion]
      split
      · simp
      · split <;> simp
    | cons nuclid rest ihr =>
      intro cand_arr_prev i acc hd
      rw [iterate_molecular_ion]
      by_cases hlt : i + 1 < max_n
      · rw [if_pos hlt]
        obtain ⟨ixx, hix⟩ := Option.isSome_iff_exists.mp (hcov (i + 1) hlt)
        obtain ⟨acc2, hacc2⟩ := Option.isSome_iff_exists.mp
          (ih ixx (cand_arr_prev ++ [nuclid]) (i + 1) acc (by omega))
        simp only [hix, hacc2]
        exact ihr cand_arr_prev i acc2 hd
      · rw [if_neg hlt]
        split <;> simp

/-- C10 (implicit contiguity precondition): if the non-zero slots of the
composition form a contiguous prefix and each of their elements has an entry
in the builder's `element_isotopes` table, every slot read during the
recursion of `iterate_molecular_ion` holds a non-zero hash and the
isotope-list lookup never fails, so `combinatorics` returns a result; but
with a zero slot in front of a non-zero slot the recursion reads a zero
hash, decodes it to element 0 — never a key of the table — and the lookup
faults (`combinatorics bW [6, 0, 6] 0 10 = none`). -/
theorem contiguity_precondition :
    (∀ (self : MolecularIonBuilder) (front : List ℕ) (z : ℕ) (low high : ℚ),
      (∀ h ∈ front, h ≠ 0 ∧ (hash_to_isotope h).2 = 0) →
      (∀ h ∈ front, (self.tables.element_isotopes (hash_to_isotope h).1).isSome) →
      (combinatorics self (front ++ List.replicate z 0) low high).isSome) ∧
    combinatorics bW [6, 0, 6] 0 10 = none := by
  constructor
  · intro self front z low high hfront hcov
    have hval : (front ++ List.replicate z 0).all
        (fun h => (hash_to_isotope h).2 = 0) = true := by
      rw [List.all_eq_true]
      intro x hx
      rcases List.mem_append.mp hx with hx1 | hx2
      · simpa using (hfront x hx1).2
      · rw [List.eq_of_mem_replicate hx2]
        decide
    have hfone : front.filter (fun h => h ≠ 0) = front := by
      rw [List.filter_eq_self]
      intro x hx
      simpa using (hfront x hx).1
    have hfzero : (List.replicate z 0).filter (fun h : ℕ => h ≠ 0) = [] := by
      rw [List.filter_eq_nil_iff]
      intro x hx
      simp [List.eq_of_mem_replicate hx]
    have hdepth : ((front ++ List.replicate z 0).filter (fun h => h ≠ 0)).length
        = front.length := by
      rw [List.filter_append, hfone, hfzero, List.append_nil]
    suffices hs : (comb_result self.tables (front ++ List.replicate z 0) low high).isSome by
      rw [combinatorics]
      obtain ⟨p, hp⟩ := Option.isSome_iff_exists.mp hs
      rw [hp]
      rfl
    rw [comb_result]
    rw [if_pos hval]
    simp only [hdepth]
    by_cases hfe : front = []
    · subst hfe
      simp
    · have hlen : 0 < front.length := List.length_pos.mpr hfe
      rw [if_pos hlen]
      have hcov2 : ∀ k, k < front.length →
          (get_element_isotopes self.tables
            ((front ++ List.replicate z 0).getD k 0)).isSome := by
        intro k hk
        rw [getD_append_left front _ k hk]
        simpa [get_element_isotopes] using hcov _ (getD_mem_of_lt front k hk)
      obtain ⟨ith, hith⟩ := Option.isSome_iff_exists.mp (hcov2 0 hlen)
      obtain ⟨cands, hcands⟩ := Option.isSome_iff_exists.mp
        (iterate_molecular_ion_isSome self.tables (front ++ List.replicate z 0)
          low high front.length hcov2 front.length ith [] 0 [] (by omega))
      simp only [hith, hcands]
      simp
  · norm_num [combinatorics, comb_result, iterate_molecular_ion, bW, tW,
      get_element_isotopes, hash_to_isotope]

theorem contiguity_precondition_witness :
    ((∀ h ∈ ([6] : List ℕ), h ≠ 0 ∧ (hash_to_isotope h).2 = 0) ∧
     (∀ h ∈ ([6] : List ℕ), (bW.tables.element_isotopes (hash_to_isotope h).1).isSome)) ∧
    (combinatorics bW ([6] ++ List.replicate 2 0) 0 10).isSome :=
  ⟨⟨by decide, by decide⟩,
   contiguity_precondition.1 bW [6] 2 0 10 (by decide) (by decide)⟩

/-- Modelled from the spec: the newer-layout `MolecularIonBuilder.combinatorics`
(the `utils/molecular_ions.py` of the `src/ifes_apt_tc_data_modeling` layout is
imported by that layout's readers but is not among the provided sources; only
its callers and the `NEUTRON_NUMBER_FOR_ELEMENT = 255` declaration are).  Per
the design document, the reserved neutron value 255 encodes "this element,
isotope unspecified" and is valid as a composition input token; the expansion
recurses over the non-empty slots, branching each slot over
`isotopes_of(proton_count(slot))`.  The body below is the old-layout
`combinatorics` with its input validation accepting empty slots and
255-sentinel slots instead of neutron-0 slots. -/
def combinatorics_element (t : MolecularIonTables) (element_arr : List ℕ)
    (low high : ℚ) : Option (ℕ × List MolecularIonCandidate) :=
  if element_arr.all (fun h => h = 0 ∨ (hash_to_isotope h).2 = 255) then
    let max_depth := (element_arr.filter (· ≠ 0)).length
    if 0 < max_depth then
      match get_element_isotopes t (element_arr.getD 0 0) with
      | none => none
      | some ith_nuclids =>
        match iterate_molecular_ion t element_arr low high ith_nuclids [] 0 max_depth [] with
        | none => none
        | some cands => some (try_to_reduce_to_unique_solution t cands)
    else
      some (0, [])
  else
    none

/-- C6: a composition whose non-empty slots all carry the any-isotope
sentinel `(p, 255)` (a contiguous prefix, per the composition invariant,
with each element present in the table) is accepted by the expansion entry
point: the input validation succeeds and the search completes, and each
sentinel slot `p + 256 * 255` branches over exactly the isotope list of
element `p` in the `element_isotopes` table. -/
theorem sentinel_composition_accepted :
    (∀ (t : MolecularIonTables) (front : List ℕ) (z : ℕ) (low high : ℚ),
      (∀ h ∈ front, h ≠ 0 ∧ (hash_to_isotope h).2 = 255) →
      (∀ h ∈ front, (t.element_isotopes (hash_to_isotope h).1).isSome) →
      (combinatorics_element t (front ++ List.replicate z 0) low high).isSome) ∧
    (∀ (t : MolecularIonTables) (p : ℕ), p < 256 →
      get_element_isotopes t (p + 256 * 255) = t.element_isotopes p) := by
  constructor
  · intro t front z low high hfront hcov
    have hval : (front ++ List.replicate z 0).all
        (fun h => h = 0 ∨ (hash_to_isotope h).2 = 255) = true := by
      rw [List.all_eq_true]
      intro x hx
      rcases List.mem_append.mp hx with hx1 | hx2
      · simp [(hfront x hx1).2]
      · simp [List.eq_of_mem_replicate hx2]
    have hfone : front.filter (fun h => h ≠ 0) = front := by
      rw [List.filter_eq_self]
      intro x hx
      simpa using (hfront x hx).1
    have hfzero : (List.replicate z 0).filter (fun h : ℕ => h ≠ 0) = [] := by
      rw [List.filter_eq_nil_iff]
      intro x hx
      simp [List.eq_of_mem_replicate hx]
    have hdepth : ((front ++ List.replicate z 0).filter (fun h => h ≠ 0)).length
        = front.length := by
      rw [List.filter_append, hfone, hfzero, List.append_nil]
    rw [combinatorics_element]
    rw [if_pos hval]
    simp only [hdepth]
    by_cases hfe : front = []
    · subst hfe
      simp
    · have hlen : 0 < front.length := List.length_pos.mpr hfe
      rw [if_pos hlen]
      have hcov2 : ∀ k, k < front.length →
          (get_element_isotopes t
            ((front ++ List.replicate z 0).getD k 0)).isSome := by
        intro k hk
        rw [getD_append_left front _ k hk]
        simpa [get_element_isotopes] using hcov _ (getD_mem_of_lt front k hk)
      obtain ⟨ith, hith⟩ := Option.isSome_iff_exists.mp (hcov2 0 hlen)
      obtain ⟨cands, hcands⟩ := Option.isSome_iff_exists.mp
        (iterate_molecular_ion_isSome t (front ++ List.replicate z 0)
          low high front.length hcov2 front.length ith [] 0 [] (by omega))
      simp only [hith, hcands]
      simp
  · intro t p hp
    have hdec : (hash_to_isotope (p + 256 * 255)).1 = p := by
      simp only [hash_to_isotope]
      omega
    rw [get_element_isotopes, hdec]

theorem sentinel_composition_accepted_witness :
    ((∀ h ∈ ([65281] : List ℕ), h ≠ 0 ∧ (hash_to_isotope h).2 = 255) ∧
     (∀ h ∈ ([65281] : List ℕ), (tW.element_isotopes (hash_to_isotope h).1).isSome)) ∧
    (combinatorics_element tW ([65281] ++ List.replicate 3 0) 0 10).isSome :=
  ⟨⟨by decide, by decide⟩,
   sentinel_composition_accepted.1 tW [65281] 3 0 10 (by decide) (by decide)⟩

/-- C9: the NuclideHash encoding is a bijection between pairs `(p, n)` with
`p, n ∈ [0, 255]` and integers in `[0, 65535]`: `isotope_to_hash p n`
succeeds with value `p + 256 * n`, decoding returns `(p, n)`, and for every
`h ≤ 65535` encoding the decoded pair returns `h`. -/
theorem nuclide_hash_bijection :
    (∀ p n : ℕ, p ≤ 255 → n ≤ 255 →
      isotope_to_hash p n = some (p + 256 * n) ∧
      hash_to_isotope (p + 256 * n) = (p, n)) ∧
    (∀ h : ℕ, h ≤ 65535 →
      isotope_to_hash (hash_to_isotope h).1 (hash_to_isotope h).2 = some h) := by
  constructor
  · intro p n hp hn
    constructor
    · simp only [isotope_to_hash]
      rw [if_pos]
      · congr 1
        omega
      · omega
    · simp only [hash_to_isotope]
      refine Prod.ext ?_ ?_ <;> simp <;> omega
  · intro h hh
    simp only [hash_to_isotope, isotope_to_hash]
    rw [if_pos]
    · congr 1
      omega
    · omega

theorem nuclide_hash_bijection_witness :
    (26 ≤ 255 ∧ 30 ≤ 255 ∧
      isotope_to_hash 26 30 = some (26 + 256 * 30) ∧
      hash_to_isotope (26 + 256 * 30) = (26, 30)) ∧
    (7706 ≤ 65535 ∧
      isotope_to_hash (hash_to_isotope 7706).1 (hash_to_isotope 7706).2 = some 7706) :=
  ⟨⟨by decide, by decide, nuclide_hash_bijection.1 26 30 (by decide) (by decide)⟩,
   ⟨by decide, nuclide_hash_bijection.2 7706 (by decide)⟩⟩

/-- C5 counterexample: at `left = 0`, `right = MQ_EPSILON` we have
`right - left ≥ MQ_EPSILON`, yet the old-layout `is_range_significant`
returns `False` (it tests the strict inequality `>`). -/
theorem is_range_significant_strict_at_epsilon :
    is_range_significant 0 MQ_EPSILON = some false ∧
    MQ_EPSILON ≤ MQ_EPSILON - 0 := by
  constructor
  · norm_num [is_range_significant, MQ_EPSILON]
  · norm_num

/-- C5 amended: for nonnegative bounds, the old-layout `is_range_significant`
returns `True` iff `right - left > MQ_EPSILON` (strict), while the newer
src-layout version returns `True` iff `right - left ≥ MQ_EPSILON`. -/
theorem is_range_significant_spec (left right : ℚ)
    (hl : 0 ≤ left) (hr : 0 ≤ right) :
    (is_range_significant left right = some true ↔ MQ_EPSILON < right - left) ∧
    (is_range_significant_v2 left right = true ↔ MQ_EPSILON ≤ right - left) := by
  constructor
  · simp [is_range_significant, hl, hr]
  · simp [is_range_significant_v2, hl, hr]

theorem is_range_significant_spec_witness :
    ((0 : ℚ) ≤ 0 ∧ (0 : ℚ) ≤ 1) ∧
    ((is_range_significant 0 1 = some true ↔ MQ_EPSILON < 1 - 0) ∧
     (is_range_significant_v2 0 1 = true ↔ MQ_EPSILON ≤ 1 - 0)) :=
  ⟨⟨by norm_num, by norm_num⟩,
   is_range_significant_spec 0 1 (by norm_num) (by norm_num)⟩

end IfesApt
